import Mathlib

set_option autoImplicit false

/-!
Verification of the runtime semantics of the butter-enums library
(`ButterTupleEnum`, `ButterKeyedEnum`, `mapTuple`) against its design
specification.  JavaScript objects are modelled as insertion-ordered
association lists, `undefined` results as `Option.none`, and the
deep-freeze capability as a recursive marking of a JS value graph on
which every write attempt is checked.
-/

namespace ButterEnums

/-- JavaScript primitive values that occur as record fields in this library:
strings, numbers and booleans. -/
inductive JVal where
  | vStr (s : String)
  | vNum (n : Int)
  | vBool (b : Bool)
deriving DecidableEq

/-- Property read on an insertion-ordered association list; `none` models the
JavaScript `undefined` produced by reading a missing property. -/
def getEntry {α : Type} : List (String × α) → String → Option α
  | [], _ => none
  | e :: rest, k => if e.1 = k then some e.2 else getEntry rest k

/-- Property write on an insertion-ordered association list: an existing key
keeps its position and gets the new value, a fresh key is appended — the
semantics of JavaScript property assignment and of spread-then-assign. -/
def setEntry {α : Type} : List (String × α) → String → α → List (String × α)
  | [], k, v => [(k, v)]
  | e :: rest, k, v => if e.1 = k then (k, v) :: rest else e :: setEntry rest k v

/-- The keys of an association list, in insertion order (`Object.keys`). -/
def keysOf {α : Type} (l : List (String × α)) : List String := l.map Prod.fst

/-- `Object.fromEntries`: inserts the entries left to right, so a later
duplicate key overwrites the value of an earlier one. -/
def fromEntries {α : Type} (l : List (String × α)) : List (String × α) :=
  l.foldl (fun acc e => setEntry acc e.1 e.2) []

/-- A JavaScript object whose fields are primitive values (one attribute
record of a keyed enum). -/
abbrev JObj := List (String × JVal)

/-- The input of `ButterKeyedEnum`: a mapping from string keys to records. -/
abbrev KeyedInput := List (String × JObj)

/-- The structure returned by `ButterTupleEnum` (src/index.ts): the input
tuple and the derived label-to-itself mapping. -/
structure TupleEnum where
  tuple : List String
  enum : List (String × String)
deriving DecidableEq

/-- `ButterTupleEnum(tuple)`: `_enum = Object.fromEntries(tuple.map(value =>
[value, value]))`, exposed next to the tuple itself. -/
def ButterTupleEnum (tuple : List String) : TupleEnum :=
  ⟨tuple, fromEntries (tuple.map (fun value => (value, value)))⟩

/-- `get(index)`: `_tuple[index]` — JavaScript array indexing, which yields
`undefined` for any negative or past-the-end index. -/
def TupleEnum.get (E : TupleEnum) (index : Int) : Option String :=
  if 0 ≤ index then E.tuple[index.toNat]? else none

/-- `getMany(indices)`: `indices.map(index => $tuple[index])`. -/
def TupleEnum.getMany (E : TupleEnum) (indices : List Int) : List (Option String) :=
  indices.map E.get

/-- `length`: `_tuple.length`. -/
def TupleEnum.length (E : TupleEnum) : Nat := E.tuple.length

/-- The recognized options of `ButterKeyedEnum`
(src/butterKeyedEnum.ts): an optional key-field name and an optional
tuple factory. -/
structure KeyedOptions where
  keyName : Option String := none
  tupleFactory : Option (KeyedInput → List JObj) := none

/-- The data closed over by the structure `ButterKeyedEnum` returns: the
frozen `$enum`, the backing `$tuple`, and the effective key-field name
`options?.keyName ?? "key"`. -/
structure KeyedEnum where
  enum : KeyedInput
  tupleData : List JObj
  keyName : String

/-- `ButterKeyedEnum(enumObject, options)` construction
(src/butterKeyedEnum.ts lines 99-113):
`$enum = Object.fromEntries(Object.entries(enumObject).map(([key, value]) =>
[key, { ...value, [options?.keyName ?? "key"]: key }]))`, and
`$tuple = options?.tupleFactory ? options.tupleFactory($enum) : []`. -/
def ButterKeyedEnum (enumObject : KeyedInput) (options : KeyedOptions) : KeyedEnum :=
  let kn := options.keyName.getD "key"
  let e := fromEntries
    (enumObject.map (fun p => (p.1, setEntry p.2 kn (JVal.vStr p.1))))
  ⟨e,
    match options.tupleFactory with
    | some tupleFactory => tupleFactory e
    | none => [],
    kn⟩

/-- `get(key)`: `$enum[key]`, `undefined` when absent. -/
def KeyedEnum.get (E : KeyedEnum) (key : String) : Option JObj :=
  getEntry E.enum key

/-- `getMany(keys)`: `keys.map(key => $enum[key])`. -/
def KeyedEnum.getMany (E : KeyedEnum) (keys : List String) : List (Option JObj) :=
  keys.map E.get

/-- `keys`: `Object.keys($enum)`. -/
def KeyedEnum.keys (E : KeyedEnum) : List String := keysOf E.enum

/-- `values`: `Object.values($enum)`. -/
def KeyedEnum.values (E : KeyedEnum) : List JObj := E.enum.map Prod.snd

/-- `Array.prototype.find` with the element index threaded to the callback:
returns the first element on which the callback holds. -/
def findWithIndex {α : Type} (p : α → Nat → Bool) : List α → Nat → Option α
  | [], _ => none
  | x :: xs, i => if p x i then some x else findWithIndex p xs (i + 1)

/-- `find(predicate)`: `Object.values($enum).find((value, key) =>
predicate(value, key, $enum))`.  `Array.prototype.find` hands the callback
the element and its numeric index, so the second argument forwarded to
`predicate` is the index (a JS number), not the mapping key. -/
def KeyedEnum.find (E : KeyedEnum)
    (predicate : JObj → JVal → KeyedInput → Bool) : Option JObj :=
  findWithIndex (fun value i => predicate value (JVal.vNum i) E.enum) E.values 0

/-- The `ButterEnumsErrorMessage` runtime shape
(src/shared/error-message.ts): an `__error__` string and a `value`
placeholder (`undefined as never`). -/
structure ErrMarker where
  __error__ : String
  value : Unit
deriving DecidableEq

/-- The result of an ordered-view-dependent operation: either the
unavailability marker object or the sequence itself. -/
inductive TupleView (α : Type) where
  | marker (m : ErrMarker)
  | view (xs : List α)
deriving DecidableEq

/-- The message of the `tuple` / `getTupleValuesByProperty` marker. -/
def tupleErrMsg : String :=
  "Provide tupleFactory if you want a tuple, and ensure it\x27s not empty"

/-- The message of the `orderedKeys` marker. -/
def orderedKeysErrMsg : String :=
  "Provide tupleFactory if you want ordered keys, and ensure it\x27s not empty"

/-- The `tuple` getter: returns the marker when `$tuple.length === 0`, the
tuple otherwise. -/
def KeyedEnum.tuple (E : KeyedEnum) : TupleView JObj :=
  if E.tupleData.length = 0 then TupleView.marker ⟨tupleErrMsg, ()⟩
  else TupleView.view E.tupleData

/-- The `orderedKeys` getter: the marker when `$tuple.length === 0`, else
`$tuple.map(value => value[options?.keyName ?? "key"])`. -/
def KeyedEnum.orderedKeys (E : KeyedEnum) : TupleView (Option JVal) :=
  if E.tupleData.length = 0 then TupleView.marker ⟨orderedKeysErrMsg, ()⟩
  else TupleView.view (E.tupleData.map (fun value => getEntry value E.keyName))

/-- `getTupleValuesByProperty(property)`: the marker when
`$tuple.length === 0`, else `$tuple.map(value => value[property])`. -/
def KeyedEnum.getTupleValuesByProperty (E : KeyedEnum) (property : String) :
    TupleView (Option JVal) :=
  if E.tupleData.length = 0 then TupleView.marker ⟨tupleErrMsg, ()⟩
  else TupleView.view (E.tupleData.map (fun value => getEntry value property))

/-- `mapTuple(tuple, fn)` (src/mapTuple.ts): `Array.prototype.map`, whose
callback receives the element, its index, and the whole input sequence. -/
def mapTupleFrom {α β : Type} (fn : α → Nat → List α → β) (orig : List α) :
    List α → Nat → List β
  | [], _ => []
  | x :: xs, i => fn x i orig :: mapTupleFrom fn orig xs (i + 1)

/-- `mapTuple(tuple, fn) = Array.prototype.map.call(tuple, fn)`. -/
def mapTuple {α β : Type} (tuple : List α) (fn : α → Nat → List α → β) :
    List β :=
  mapTupleFrom fn tuple tuple 0

/-- Modelled from the spec: a JavaScript runtime value for the immutability
contract of the external deep-freeze collaborator — primitives, plus objects
and arrays each carrying their frozen flag. -/
inductive JSVal where
  | prim (v : JVal)
  | obj (frozen : Bool) (fields : List (String × JSVal))
  | arr (frozen : Bool) (elems : List JSVal)

mutual

/-- Modelled from the spec: the external `deep-freeze-es6` capability —
recursively makes a composite value and every nested composite immutable. -/
def deepFreeze : JSVal → JSVal
  | JSVal.prim v => JSVal.prim v
  | JSVal.obj _ fields => JSVal.obj true (deepFreezeFields fields)
  | JSVal.arr _ elems => JSVal.arr true (deepFreezeElems elems)

/-- Deep-freezes every field value of an object. -/
def deepFreezeFields : List (String × JSVal) → List (String × JSVal)
  | [] => []
  | (k, v) :: rest => (k, deepFreeze v) :: deepFreezeFields rest

/-- Deep-freezes every element of an array. -/
def deepFreezeElems : List JSVal → List JSVal
  | [] => []
  | v :: rest => deepFreeze v :: deepFreezeElems rest

end

/-- One step of a JavaScript property-access path. -/
inductive PathStep where
  | field (name : String)
  | idx (i : Nat)

/-- A strict-mode JavaScript write `target.p1.p2...pn = w` along a path:
reads down to the final container, then assigns; the assignment throws
(`none`) when the final container is frozen, and any read of a missing
property along the way also fails the attempt. -/
def writeAt : List PathStep → JSVal → JSVal → Option JSVal
  | [], _, _ => none
  | step :: rest, target, w =>
    match step, target with
    | PathStep.field k, JSVal.obj frozen fields =>
      match rest with
      | [] => if frozen then none else some (JSVal.obj false (setEntry fields k w))
      | _ :: _ =>
        match getEntry fields k with
        | some child =>
          (writeAt rest child w).map (fun c => JSVal.obj frozen (setEntry fields k c))
        | none => none
    | PathStep.idx i, JSVal.arr frozen elems =>
      match rest with
      | [] => if frozen then none else some (JSVal.arr false (elems.set i w))
      | _ :: _ =>
        match elems[i]? with
        | some child =>
          (writeAt rest child w).map (fun c => JSVal.arr frozen (elems.set i c))
        | none => none
    | _, _ => none

/-- Lifts an attribute record into the JS value graph. -/
def objOfJObj (r : JObj) : JSVal :=
  JSVal.obj false (r.map (fun p => (p.1, JSVal.prim p.2)))

/-- The frozen `tuple` returned by `ButterTupleEnum`: `deepFreeze(_tuple)`. -/
def tupleEnumTupleVal (S : List String) : JSVal :=
  deepFreeze (JSVal.arr false
    ((ButterTupleEnum S).tuple.map (fun s => JSVal.prim (JVal.vStr s))))

/-- The frozen `enum` returned by `ButterTupleEnum`: `deepFreeze(_enum)`. -/
def tupleEnumEnumVal (S : List String) : JSVal :=
  deepFreeze (JSVal.obj false
    ((ButterTupleEnum S).enum.map (fun p => (p.1, JSVal.prim (JVal.vStr p.2)))))

/-- The frozen `$enum` of `ButterKeyedEnum`: `deepFreeze(Object.fromEntries(...))`. -/
def keyedEnumVal (enumObject : KeyedInput) (options : KeyedOptions) : JSVal :=
  deepFreeze (JSVal.obj false
    ((ButterKeyedEnum enumObject options).enum.map (fun p => (p.1, objOfJObj p.2))))

/-- The `$tuple` of `ButterKeyedEnum`:
`options?.tupleFactory ? deepFreeze(options.tupleFactory($enum)) : []`. -/
def keyedTupleVal (enumObject : KeyedInput) (options : KeyedOptions) : JSVal :=
  match options.tupleFactory with
  | some _ =>
    deepFreeze (JSVal.arr false
      ((ButterKeyedEnum enumObject options).tupleData.map objOfJObj))
  | none => JSVal.arr false []

/-- The fruits mapping used throughout the repository tests. -/
def fruits : KeyedInput :=
  [("apple",
     [("name", JVal.vStr "Apple"), ("color", JVal.vStr "red"),
      ("sweetness", JVal.vNum 7)]),
   ("banana",
     [("name", JVal.vStr "Banana"), ("color", JVal.vStr "yellow"),
      ("sweetness", JVal.vNum 8)]),
   ("lemon",
     [("name", JVal.vStr "Lemon"), ("color", JVal.vStr "yellow"),
      ("sweetness", JVal.vNum 2)])]

/-- The augmented banana record: the original fields plus the hoisted key. -/
def bananaAug : JObj :=
  [("name", JVal.vStr "Banana"), ("color", JVal.vStr "yellow"),
   ("sweetness", JVal.vNum 8), ("key", JVal.vStr "banana")]

/-- A one-entry mapping for the ordered-view marker scenarios. -/
def singletonInput : KeyedInput := [("a", [("v", JVal.vNum 1)])]

/-- A supplied tuple factory that legitimately yields an empty tuple. -/
def emptyTupleFactory : KeyedInput → List JObj := fun _ => []

/-- A tuple factory listing every augmented record in mapping order. -/
def valuesTupleFactory : KeyedInput → List JObj := fun e => e.map Prod.snd

/-- A tuple factory that omits two keys, repeats one record and adds a
record that belongs to no key at all. -/
def sloppyTupleFactory : KeyedInput → List JObj := fun e =>
  (getEntry e "banana").toList ++ (getEntry e "banana").toList ++
    [[("name", JVal.vStr "ghost")]]

/-! Association-list lemmas. -/

theorem getEntry_setEntry_self {α : Type} (l : List (String × α)) (k : String)
    (v : α) : getEntry (setEntry l k v) k = some v := by
  induction l with
  | nil => simp [setEntry, getEntry]
  | cons e rest ih =>
    by_cases h : e.1 = k
    · simp [setEntry, h, getEntry]
    · simp [setEntry, h, getEntry, ih]

theorem getEntry_setEntry_ne {α : Type} (l : List (String × α)) (k f : String)
    (v : α) (h : f ≠ k) : getEntry (setEntry l k v) f = getEntry l f := by
  induction l with
  | nil => simp [setEntry, getEntry, Ne.symm h]
  | cons e rest ih =>
    by_cases he : e.1 = k
    · subst he
      simp [setEntry, getEntry, Ne.symm h]
    · by_cases hf : e.1 = f
      · simp [setEntry, he, getEntry, hf, h]
      · simp [setEntry, he, getEntry, hf, ih]

theorem keysOf_setEntry {α : Type} (l : List (String × α)) (k : String)
    (v : α) :
    keysOf (setEntry l k v) =
      if k ∈ keysOf l then keysOf l else keysOf l ++ [k] := by
  induction l with
  | nil => simp [setEntry, keysOf]
  | cons e rest ih =>
    by_cases h : e.1 = k
    · simp [setEntry, h, keysOf]
    · have hk : ¬ k = e.1 := fun hh => h hh.symm
      by_cases hm : k ∈ List.map Prod.fst rest
      · simp only [keysOf, hm, if_true] at ih
        simp [setEntry, h, keysOf, List.mem_cons, hk, hm, ih]
      · simp only [keysOf, hm, if_false] at ih
        simp [setEntry, h, keysOf, List.mem_cons, hk, hm, ih]

theorem mem_keysOf_setEntry {α : Type} (l : List (String × α)) (k f : String)
    (v : α) : f ∈ keysOf (setEntry l k v) ↔ f ∈ keysOf l ∨ f = k := by
  rw [keysOf_setEntry]
  by_cases h : k ∈ keysOf l
  · simp only [h, if_true]
    constructor
    · exact fun hf => Or.inl hf
    · rintro (hf | rfl) <;> assumption
  · simp [h, List.mem_append]

theorem nodup_keysOf_setEntry {α : Type} (l : List (String × α)) (k : String)
    (v : α) (h : (keysOf l).Nodup) : (keysOf (setEntry l k v)).Nodup := by
  rw [keysOf_setEntry]
  by_cases hm : k ∈ keysOf l
  · simpa [hm] using h
  · simp only [hm, if_false]
    simpa [List.nodup_append] using ⟨h, hm⟩

theorem mem_setEntry {α : Type} (l : List (String × α)) (k : String) (v : α)
    (p : String × α) (hp : p ∈ setEntry l k v) : p ∈ l ∨ p = (k, v) := by
  induction l with
  | nil => simpa [setEntry] using hp
  | cons e rest ih =>
    by_cases h : e.1 = k
    · simp only [setEntry, h, if_true] at hp
      rcases List.mem_cons.mp hp with h1 | h1
      · exact Or.inr h1
      · exact Or.inl (List.mem_cons_of_mem _ h1)
    · simp only [setEntry, h, if_false] at hp
      rcases List.mem_cons.mp hp with h1 | h1
      · exact Or.inl (h1 ▸ List.mem_cons_self _ _)
      · rcases ih h1 with h2 | h2
        · exact Or.inl (List.mem_cons_of_mem _ h2)
        · exact Or.inr h2

theorem setEntry_of_not_mem {α : Type} (l : List (String × α)) (k : String)
    (v : α) (h : k ∉ keysOf l) : setEntry l k v = l ++ [(k, v)] := by
  induction l with
  | nil => simp [setEntry]
  | cons e rest ih =>
    have h1 : ¬ e.1 = k := by
      intro hh
      exact h (by simp [keysOf, hh])
    have h2 : k ∉ keysOf rest := by
      intro hh
      exact h (by simp [keysOf] at hh ⊢; exact Or.inr hh)
    simp [setEntry, h1, ih h2]

theorem mem_keysOf_of_mem {α : Type} (l : List (String × α)) (k : String)
    (v : α) (h : (k, v) ∈ l) : k ∈ keysOf l := by
  simp only [keysOf, List.mem_map]
  exact ⟨(k, v), h, rfl⟩

theorem getEntry_of_mem {α : Type} (l : List (String × α)) (k : String)
    (v : α) (hnd : (keysOf l).Nodup) (h : (k, v) ∈ l) :
    getEntry l k = some v := by
  induction l with
  | nil => simp at h
  | cons e rest ih =>
    have hsplit : e.1 ∉ List.map Prod.fst rest ∧ (List.map Prod.fst rest).Nodup := by
      have h2 := hnd
      simp only [keysOf, List.map_cons, List.nodup_cons] at h2
      exact h2
    rcases List.mem_cons.mp h with h1 | h1
    · simp [getEntry, ← h1]
    · have hk : k ∈ keysOf rest := mem_keysOf_of_mem rest k v h1
      have hne : ¬ e.1 = k := fun hh => hsplit.1 (by rw [hh]; exact hk)
      simp [getEntry, hne, ih hsplit.2 h1]

theorem getEntry_mem {α : Type} (l : List (String × α)) (k : String) (v : α)
    (h : getEntry l k = some v) : (k, v) ∈ l := by
  induction l with
  | nil => simp [getEntry] at h
  | cons e rest ih =>
    by_cases he : e.1 = k
    · simp only [getEntry, he, if_true, Option.some.injEq] at h
      subst h
      exact he ▸ List.mem_cons_self _ _
    · simp only [getEntry, he, if_false] at h
      exact List.mem_cons_of_mem _ (ih h)

theorem isSome_getEntry_of_mem_keysOf {α : Type} (l : List (String × α))
    (k : String) (h : k ∈ keysOf l) : (getEntry l k).isSome := by
  induction l with
  | nil => simp [keysOf] at h
  | cons e rest ih =>
    by_cases he : e.1 = k
    · simp [getEntry, he]
    · have : k ∈ keysOf rest := by
        rcases by simpa [keysOf] using h with h1 | h1
        · exact absurd h1.symm he
        · simpa [keysOf] using h1
      simp [getEntry, he, ih this]

/-! `Object.fromEntries` lemmas, via its left fold. -/

theorem foldl_setEntry_eq_append {α : Type} (l : List (String × α)) :
    ∀ acc : List (String × α), (keysOf (acc ++ l)).Nodup →
      l.foldl (fun acc e => setEntry acc e.1 e.2) acc = acc ++ l := by
  induction l with
  | nil => intro acc h; simp
  | cons e rest ih =>
    intro acc h
    have hsplit : (List.map Prod.fst acc ++ e.1 :: List.map Prod.fst rest).Nodup := by
      have h2 := h
      simp only [keysOf, List.map_append, List.map_cons] at h2
      exact h2
    have hnotin : e.1 ∉ keysOf acc := by
      intro hmem
      exact (List.nodup_append.mp hsplit).2.2 hmem (List.mem_cons_self _ _)
    have hstep : setEntry acc e.1 e.2 = acc ++ [e] := by
      simpa using setEntry_of_not_mem acc e.1 e.2 hnotin
    have hrec := ih (acc ++ [e]) (by rw [List.append_assoc, List.singleton_append]; exact h)
    rw [List.foldl_cons, hstep, hrec, List.append_assoc, List.singleton_append]

theorem fromEntries_of_nodup {α : Type} (l : List (String × α))
    (h : (keysOf l).Nodup) : fromEntries l = l := by
  have := foldl_setEntry_eq_append l [] (by simpa using h)
  simpa [fromEntries] using this

theorem foldl_setEntry_forall {α : Type} (P : String × α → Prop)
    (l : List (String × α)) :
    ∀ acc : List (String × α), (∀ p ∈ acc, P p) → (∀ p ∈ l, P p) →
      ∀ p ∈ l.foldl (fun acc e => setEntry acc e.1 e.2) acc, P p := by
  induction l with
  | nil => intro acc hacc _ p hp; exact hacc p (by simpa using hp)
  | cons e rest ih =>
    intro acc hacc hl p hp
    refine ih (setEntry acc e.1 e.2) ?_ (fun q hq => hl q (List.mem_cons_of_mem _ hq)) p hp
    intro q hq
    rcases mem_setEntry acc e.1 e.2 q hq with h1 | h1
    · exact hacc q h1
    · exact h1 ▸ hl e (List.mem_cons_self _ _)

theorem mem_keysOf_foldl_setEntry {α : Type} (l : List (String × α)) :
    ∀ (acc : List (String × α)) (f : String),
      f ∈ keysOf (l.foldl (fun acc e => setEntry acc e.1 e.2) acc) ↔
        f ∈ keysOf acc ∨ f ∈ keysOf l := by
  induction l with
  | nil => intro acc f; simp [keysOf]
  | cons e rest ih =>
    intro acc f
    rw [List.foldl_cons, ih]
    rw [mem_keysOf_setEntry]
    constructor
    · rintro ((h | h) | h)
      · exact Or.inl h
      · exact Or.inr (by simp [keysOf, h])
      · exact Or.inr (by simp [keysOf] at h ⊢; exact Or.inr h)
    · rintro (h | h)
      · exact Or.inl (Or.inl h)
      · rcases by simpa [keysOf] using h with h1 | h1
        · exact Or.inl (Or.inr h1)
        · exact Or.inr (by simpa [keysOf] using h1)

theorem nodup_keysOf_foldl_setEntry {α : Type} (l : List (String × α)) :
    ∀ acc : List (String × α), (keysOf acc).Nodup →
      (keysOf (l.foldl (fun acc e => setEntry acc e.1 e.2) acc)).Nodup := by
  induction l with
  | nil => intro acc h; simpa using h
  | cons e rest ih =>
    intro acc h
    exact ih (setEntry acc e.1 e.2) (nodup_keysOf_setEntry acc e.1 e.2 h)

theorem nodup_keysOf_fromEntries {α : Type} (l : List (String × α)) :
    (keysOf (fromEntries l)).Nodup := by
  simpa [fromEntries] using nodup_keysOf_foldl_setEntry l [] (by simp [keysOf])

theorem mem_keysOf_fromEntries {α : Type} (l : List (String × α)) (f : String) :
    f ∈ keysOf (fromEntries l) ↔ f ∈ keysOf l := by
  simpa [fromEntries, keysOf] using mem_keysOf_foldl_setEntry l [] f

/-! Deep-freeze lemmas. -/

theorem getEntry_deepFreezeFields (fields : List (String × JSVal)) (k : String) :
    getEntry (deepFreezeFields fields) k = (getEntry fields k).map deepFreeze := by
  induction fields with
  | nil => simp [deepFreezeFields, getEntry]
  | cons e rest ih =>
    obtain ⟨k', v⟩ := e
    by_cases h : k' = k
    · simp [deepFreezeFields, getEntry, h]
    · simp [deepFreezeFields, getEntry, h, ih]

theorem getElem?_deepFreezeElems (elems : List JSVal) (i : Nat) :
    (deepFreezeElems elems)[i]? = (elems[i]?).map deepFreeze := by
  induction elems generalizing i with
  | nil => simp [deepFreezeElems]
  | cons v rest ih =>
    cases i with
    | zero => simp [deepFreezeElems]
    | succ j => simpa [deepFreezeElems] using ih j

theorem writeAt_deepFreeze (path : List PathStep) :
    ∀ v w : JSVal, writeAt path (deepFreeze v) w = none := by
  induction path with
  | nil => intro v w; rfl
  | cons step rest ih =>
    intro v w
    cases v with
    | prim p => cases step <;> simp [deepFreeze, writeAt]
    | obj fr fields =>
      cases step with
      | field k =>
        cases rest with
        | nil => simp [deepFreeze, writeAt]
        | cons s2 r2 =>
          simp only [deepFreeze, writeAt, getEntry_deepFreezeFields]
          cases h : getEntry fields k with
          | none => simp
          | some child =>
            have hrec := ih child w
            simp only [writeAt] at hrec
            simp [hrec]
      | idx i => simp [deepFreeze, writeAt]
    | arr fr elems =>
      cases step with
      | field k => simp [deepFreeze, writeAt]
      | idx i =>
        cases rest with
        | nil => simp [deepFreeze, writeAt]
        | cons s2 r2 =>
          simp only [deepFreeze, writeAt, getElem?_deepFreezeElems]
          cases h : elems[i]? with
          | none => simp
          | some child =>
            have hrec := ih child w
            simp only [writeAt] at hrec
            simp [hrec]

/-! `mapTuple` lemmas. -/

theorem length_mapTupleFrom {α β : Type} (fn : α → Nat → List α → β)
    (orig : List α) :
    ∀ (l : List α) (i : Nat), (mapTupleFrom fn orig l i).length = l.length := by
  intro l
  induction l with
  | nil => intro i; rfl
  | cons x xs ih => intro i; simp [mapTupleFrom, ih]

theorem getElem?_mapTupleFrom {α β : Type} (fn : α → Nat → List α → β)
    (orig : List α) :
    ∀ (l : List α) (i j : Nat),
      (mapTupleFrom fn orig l i)[j]? = (l[j]?).map (fun v => fn v (i + j) orig) := by
  intro l
  induction l with
  | nil => intro i j; simp [mapTupleFrom]
  | cons x xs ih =>
    intro i j
    cases j with
    | zero => simp [mapTupleFrom]
    | succ j' =>
      have := ih (i + 1) j'
      simp only [mapTupleFrom, List.getElem?_cons_succ]
      rw [this]
      congr 1
      funext v
      congr 1
      omega

/-! Claim theorems. -/

/-- C4: the label-sequence factory builds `enum` in a single pass writing
`label → label` with later duplicates overwriting earlier ones, so `enum`
has exactly one entry per distinct label of the input, each mapped to
itself, while `tuple` keeps all occurrences in order and `length` counts
all occurrences, not the deduplicated ones. -/
theorem tuple_enum_construction (S : List String) :
    (ButterTupleEnum S).tuple = S ∧
    (ButterTupleEnum S).length = S.length ∧
    (keysOf (ButterTupleEnum S).enum).Nodup ∧
    (∀ label : String, label ∈ keysOf (ButterTupleEnum S).enum ↔ label ∈ S) ∧
    (∀ p ∈ (ButterTupleEnum S).enum, p.2 = p.1) ∧
    (∀ label ∈ S, getEntry (ButterTupleEnum S).enum label = some label) := by
  have hdiag : ∀ p ∈ (ButterTupleEnum S).enum, p.2 = p.1 := by
    intro p hp
    refine foldl_setEntry_forall (fun q => q.2 = q.1)
      (S.map (fun v => (v, v))) [] ?_ ?_ p ?_
    · intro q hq; simp at hq
    · intro q hq
      rcases List.mem_map.mp hq with ⟨s, _, rfl⟩
      rfl
    · simpa [ButterTupleEnum, fromEntries] using hp
  have hmem : ∀ label : String,
      label ∈ keysOf (ButterTupleEnum S).enum ↔ label ∈ S := by
    intro label
    rw [show (ButterTupleEnum S).enum = fromEntries (S.map (fun v => (v, v))) from rfl,
      mem_keysOf_fromEntries]
    simp [keysOf, List.map_map, Function.comp]
  refine ⟨rfl, rfl, nodup_keysOf_fromEntries _, hmem, hdiag, ?_⟩
  intro label hl
  have hk : label ∈ keysOf (ButterTupleEnum S).enum := (hmem label).mpr hl
  have hs := isSome_getEntry_of_mem_keysOf _ _ hk
  cases hv : getEntry (ButterTupleEnum S).enum label with
  | none => rw [hv] at hs; simp at hs
  | some v =>
    have hd := hdiag (label, v) (getEntry_mem _ _ _ hv)
    simp only at hd
    rw [hd]

/-- A closed instance of the C4 theorem, on an input with a duplicate
label: the mapping collapses the duplicate while `tuple` and `length`
keep both occurrences. -/
theorem tuple_enum_construction_witness :
    (ButterTupleEnum ["a", "b", "a"]).tuple = ["a", "b", "a"] ∧
    (ButterTupleEnum ["a", "b", "a"]).length = 3 ∧
    (keysOf (ButterTupleEnum ["a", "b", "a"]).enum).Nodup ∧
    ("a" ∈ keysOf (ButterTupleEnum ["a", "b", "a"]).enum ↔ "a" ∈ ["a", "b", "a"]) ∧
    getEntry (ButterTupleEnum ["a", "b", "a"]).enum "a" = some "a" := by
  obtain ⟨h1, h2, h3, h4, _, h6⟩ := tuple_enum_construction ["a", "b", "a"]
  exact ⟨h1, h2, h3, h4 "a", h6 "a" (by decide)⟩

/-- C5: `get(i)` on a label-sequence enum returns the i-th label for every
in-range index, the absent sentinel for every negative or past-the-end
index, and `getMany` resolves each position independently through `get`,
preserving length. -/
theorem tuple_enum_get_spec (S : List String) :
    (∀ (n : Nat) (hn : n < S.length),
      (ButterTupleEnum S).get (n : Int) = some (S.get ⟨n, hn⟩)) ∧
    (∀ i : Int, i < 0 ∨ (S.length : Int) ≤ i → (ButterTupleEnum S).get i = none) ∧
    (∀ indices : List Int,
      ((ButterTupleEnum S).getMany indices).length = indices.length ∧
      ∀ j : Nat, ((ButterTupleEnum S).getMany indices)[j]? =
        (indices[j]?).map (ButterTupleEnum S).get) := by
  refine ⟨?_, ?_, ?_⟩
  · intro n hn
    simp [TupleEnum.get, ButterTupleEnum, List.getElem?_eq_getElem, hn]
  · intro i hi
    rcases hi with hi | hi
    · simp [TupleEnum.get, not_le.mpr hi]
    · have h0 : 0 ≤ i := by omega
      have ht : S.length ≤ i.toNat := by omega
      simp [TupleEnum.get, ButterTupleEnum, h0, List.getElem?_eq_none ht]
  · intro indices
    exact ⟨by simp [TupleEnum.getMany], fun j => by
      simp [TupleEnum.getMany, List.getElem?_map]⟩

/-- A closed instance of the C5 theorem on the spec's concrete scenario:
`get(1)` hits, `get(3)` and `get(-1)` miss, and `getMany` keeps length and
per-position resolution. -/
theorem tuple_enum_get_spec_witness :
    (ButterTupleEnum ["red", "green", "blue"]).get 1 = some "green" ∧
    (ButterTupleEnum ["red", "green", "blue"]).get 3 = none ∧
    (ButterTupleEnum ["red", "green", "blue"]).get (-1) = none ∧
    ((ButterTupleEnum ["red", "green", "blue"]).getMany [0, 5, 0, -2]).length = 4 ∧
    ((ButterTupleEnum ["red", "green", "blue"]).getMany [0, 5, 0, -2])[1]? =
      some ((ButterTupleEnum ["red", "green", "blue"]).get 5) := by
  obtain ⟨h1, h2, h3⟩ := tuple_enum_get_spec ["red", "green", "blue"]
  refine ⟨?_, ?_, ?_, (h3 [0, 5, 0, -2]).1, ?_⟩
  · simpa using h1 1 (by decide)
  · exact h2 3 (Or.inr (by decide))
  · exact h2 (-1) (Or.inl (by decide))
  · simpa using (h3 [0, 5, 0, -2]).2 1

/-- C8: `mapTuple` returns a sequence of exactly the input's length whose
i-th element is the transform applied to the input's i-th element together
with its index and the whole input; the empty input yields the empty
output. -/
theorem mapTuple_spec {α β : Type} (t : List α) (fn : α → Nat → List α → β) :
    (mapTuple t fn).length = t.length ∧
    (∀ (i : Nat) (hi : i < t.length),
      (mapTuple t fn)[i]? = some (fn (t.get ⟨i, hi⟩) i t)) ∧
    mapTuple ([] : List α) fn = [] := by
  refine ⟨length_mapTupleFrom fn t t 0, ?_, rfl⟩
  intro i hi
  have h := getElem?_mapTupleFrom fn t t 0 i
  show (mapTupleFrom fn t t 0)[i]? = _
  rw [h, List.getElem?_eq_getElem hi]
  simp

/-- A closed instance of the C8 theorem at a concrete tuple and transform. -/
theorem mapTuple_spec_witness :
    (mapTuple [10, 20, 30] (fun v i (_ : List Nat) => v + i)).length = 3 ∧
    (mapTuple [10, 20, 30] (fun v i (_ : List Nat) => v + i))[1]? = some 21 ∧
    mapTuple ([] : List Nat) (fun v i (_ : List Nat) => v + i) = [] := by
  obtain ⟨h1, h2, h3⟩ := mapTuple_spec [10, 20, 30] (fun v i (_ : List Nat) => v + i)
  refine ⟨h1, ?_, h3⟩
  have h := h2 1 (by decide)
  rw [h]
  rfl

/-- C10: the keyed-record factory accepts the empty mapping — the enum,
keys and values are empty, and `get` and `find` return the absent sentinel
for every key and every predicate. -/
theorem keyed_enum_empty_input (kn : Option String) (key : String)
    (predicate : JObj → JVal → KeyedInput → Bool) :
    (ButterKeyedEnum [] ⟨kn, none⟩).enum = [] ∧
    (ButterKeyedEnum [] ⟨kn, none⟩).keys = [] ∧
    (ButterKeyedEnum [] ⟨kn, none⟩).values = [] ∧
    (ButterKeyedEnum [] ⟨kn, none⟩).get key = none ∧
    (ButterKeyedEnum [] ⟨kn, none⟩).find predicate = none :=
  ⟨rfl, rfl, rfl, rfl, rfl⟩

/-- C1: keyed-record construction hoists the key into every record — for
every key of the input mapping, `enum[key][keyName]` is the key itself,
every original field with a different name keeps its original value, and
an original field named `keyName` is overwritten by the hoisted key. -/
theorem keyed_enum_hoists_key (M : KeyedInput) (options : KeyedOptions)
    (key : String) (record : JObj)
    (hnd : (keysOf M).Nodup) (hmem : (key, record) ∈ M) :
    (ButterKeyedEnum M options).get key =
      some (setEntry record (options.keyName.getD "key") (JVal.vStr key)) ∧
    getEntry (setEntry record (options.keyName.getD "key") (JVal.vStr key))
      (options.keyName.getD "key") = some (JVal.vStr key) ∧
    (∀ f : String, f ≠ options.keyName.getD "key" →
      getEntry (setEntry record (options.keyName.getD "key") (JVal.vStr key)) f =
        getEntry record f) := by
  have hnd2 : (keysOf (M.map (fun p =>
      (p.1, setEntry p.2 (options.keyName.getD "key") (JVal.vStr p.1))))).Nodup := by
    have hkeys : keysOf (M.map (fun p =>
        (p.1, setEntry p.2 (options.keyName.getD "key") (JVal.vStr p.1)))) = keysOf M := by
      simp [keysOf, List.map_map, Function.comp]
    rw [hkeys]; exact hnd
  have henum : (ButterKeyedEnum M options).enum =
      M.map (fun p => (p.1, setEntry p.2 (options.keyName.getD "key") (JVal.vStr p.1))) := by
    simp only [ButterKeyedEnum]
    exact fromEntries_of_nodup _ hnd2
  refine ⟨?_, getEntry_setEntry_self _ _ _, fun f hf => getEntry_setEntry_ne _ _ _ _ hf⟩
  show getEntry (ButterKeyedEnum M options).enum key = _
  rw [henum]
  exact getEntry_of_mem _ _ _ hnd2 (List.mem_map.mpr ⟨(key, record), hmem, rfl⟩)

/-- A closed instance of the C1 theorem: the fruits mapping with the
custom key-field name "id" — the hoisted field carries the key, the other
fields keep their values. -/
theorem keyed_enum_hoists_key_witness :
    (keysOf fruits).Nodup ∧
    ("banana", [("name", JVal.vStr "Banana"), ("color", JVal.vStr "yellow"),
      ("sweetness", JVal.vNum 8)]) ∈ fruits ∧
    (ButterKeyedEnum fruits ⟨some "id", none⟩).get "banana" =
      some [("name", JVal.vStr "Banana"), ("color", JVal.vStr "yellow"),
            ("sweetness", JVal.vNum 8), ("id", JVal.vStr "banana")] := by
  have h := keyed_enum_hoists_key fruits ⟨some "id", none⟩ "banana"
    [("name", JVal.vStr "Banana"), ("color", JVal.vStr "yellow"),
     ("sweetness", JVal.vNum 8)] (by decide) (by decide)
  exact ⟨by decide, by decide, h.1⟩

/-- C2: evaluation of `find` at the failing input — the code hands the
predicate the numeric position produced by `Array.prototype.find`, not the
mapping key, so a predicate testing its second argument against the key
"banana" never fires, while the same test against the index 1 returns the
banana record. -/
theorem keyed_find_passes_index_not_key :
    (ButterKeyedEnum fruits ⟨none, none⟩).find
      (fun _ k _ => k == JVal.vStr "banana") = none ∧
    (ButterKeyedEnum fruits ⟨none, none⟩).find
      (fun _ k _ => k == JVal.vNum 1) = some bananaAug := by
  exact ⟨rfl, rfl⟩

/-- C3 (counterexample): the unavailable marker is not distinguishable
from the result of a supplied tupleFactory that yields an empty tuple —
both paths return the very same marker object. -/
theorem tuple_marker_collapses_empty_tuple :
    (ButterKeyedEnum singletonInput ⟨none, some emptyTupleFactory⟩).tuple =
      (ButterKeyedEnum singletonInput ⟨none, none⟩).tuple ∧
    (ButterKeyedEnum singletonInput ⟨none, some emptyTupleFactory⟩).tuple =
      TupleView.marker ⟨tupleErrMsg, ()⟩ :=
  ⟨rfl, rfl⟩

/-- C3 (amended): each ordered-view-dependent operation returns the tagged
marker object — never a plain sequence — both when no tupleFactory was
supplied and when the supplied tupleFactory yields an empty tuple, and the
marker differs from every plain-sequence result. -/
theorem tuple_marker_amended (M : KeyedInput) (options : KeyedOptions)
    (hun : options.tupleFactory = none ∨
      ∃ tf, options.tupleFactory = some tf ∧
        tf ((ButterKeyedEnum M options).enum) = []) :
    (ButterKeyedEnum M options).tuple = TupleView.marker ⟨tupleErrMsg, ()⟩ ∧
    (ButterKeyedEnum M options).orderedKeys =
      TupleView.marker ⟨orderedKeysErrMsg, ()⟩ ∧
    (∀ property : String,
      (ButterKeyedEnum M options).getTupleValuesByProperty property =
        TupleView.marker ⟨tupleErrMsg, ()⟩) ∧
    (∀ xs : List JObj,
      (TupleView.marker ⟨tupleErrMsg, ()⟩ : TupleView JObj) ≠ TupleView.view xs) := by
  have hdata : (ButterKeyedEnum M options).tupleData = [] := by
    rcases hun with h | ⟨tf, h, he⟩
    · simp [ButterKeyedEnum, h]
    · simp only [ButterKeyedEnum] at he ⊢
      simp only [h]
      simpa using he
  refine ⟨?_, ?_, fun property => ?_, fun xs h => by cases h⟩ <;>
    simp [KeyedEnum.tuple, KeyedEnum.orderedKeys,
      KeyedEnum.getTupleValuesByProperty, hdata]

/-- A closed instance of the amended C3 theorem, with no tupleFactory
supplied. -/
theorem tuple_marker_amended_witness :
    (ButterKeyedEnum singletonInput ⟨none, none⟩).tuple =
      TupleView.marker ⟨tupleErrMsg, ()⟩ ∧
    (ButterKeyedEnum singletonInput ⟨none, none⟩).orderedKeys =
      TupleView.marker ⟨orderedKeysErrMsg, ()⟩ ∧
    (ButterKeyedEnum singletonInput ⟨none, none⟩).getTupleValuesByProperty "v" =
      TupleView.marker ⟨tupleErrMsg, ()⟩ := by
  obtain ⟨h1, h2, h3, _⟩ :=
    tuple_marker_amended singletonInput ⟨none, none⟩ (Or.inl rfl)
  exact ⟨h1, h2, h3 "v"⟩

/-- C6: with a tupleFactory yielding a non-empty tuple, `orderedKeys[i]`
is `tuple[i][keyName]` and `getTupleValuesByProperty(p)[i]` is
`tuple[i][p]` for every valid index, preserving the tuple order and
length. -/
theorem ordered_views_follow_tuple (M : KeyedInput) (options : KeyedOptions)
    (tf : KeyedInput → List JObj) (E : KeyedEnum)
    (hE : E = ButterKeyedEnum M options)
    (htf : options.tupleFactory = some tf)
    (hne : E.tupleData ≠ [])
    (property : String)
    (hp : ∀ r ∈ E.tupleData, (getEntry r property).isSome) :
    E.tuple = TupleView.view E.tupleData ∧
    (∃ ks : List (Option JVal), E.orderedKeys = TupleView.view ks ∧
      ks.length = E.tupleData.length ∧
      ∀ i : Nat, ks[i]? = (E.tupleData[i]?).map (fun r => getEntry r E.keyName)) ∧
    (∃ vs : List (Option JVal),
      E.getTupleValuesByProperty property = TupleView.view vs ∧
      vs.length = E.tupleData.length ∧
      ∀ i : Nat, vs[i]? = (E.tupleData[i]?).map (fun r => getEntry r property)) := by
  have hlen : ¬ E.tupleData.length = 0 := by
    simpa [List.length_eq_zero] using hne
  refine ⟨?_,
    ⟨E.tupleData.map (fun r => getEntry r E.keyName), ?_, ?_, ?_⟩,
    ⟨E.tupleData.map (fun r => getEntry r property), ?_, ?_, ?_⟩⟩
  · simp [KeyedEnum.tuple, hlen]
  · simp [KeyedEnum.orderedKeys, hlen]
  · simp
  · intro i; simp [List.getElem?_map]
  · simp [KeyedEnum.getTupleValuesByProperty, hlen]
  · simp
  · intro i; simp [List.getElem?_map]

/-- A closed instance of the C6 theorem: the fruits mapping with the
factory listing every augmented record in mapping order and the field
name "color", which every tuple element carries. -/
theorem ordered_views_follow_tuple_witness :
    (ButterKeyedEnum fruits ⟨none, some valuesTupleFactory⟩).tuple =
      TupleView.view (ButterKeyedEnum fruits ⟨none, some valuesTupleFactory⟩).tupleData ∧
    (∃ ks : List (Option JVal),
      (ButterKeyedEnum fruits ⟨none, some valuesTupleFactory⟩).orderedKeys =
        TupleView.view ks ∧
      ks.length = (ButterKeyedEnum fruits ⟨none, some valuesTupleFactory⟩).tupleData.length ∧
      ∀ i : Nat, ks[i]? =
        ((ButterKeyedEnum fruits ⟨none, some valuesTupleFactory⟩).tupleData[i]?).map
          (fun r => getEntry r (ButterKeyedEnum fruits ⟨none, some valuesTupleFactory⟩).keyName)) ∧
    (∃ vs : List (Option JVal),
      (ButterKeyedEnum fruits ⟨none, some valuesTupleFactory⟩).getTupleValuesByProperty
        "color" = TupleView.view vs ∧
      vs.length = (ButterKeyedEnum fruits ⟨none, some valuesTupleFactory⟩).tupleData.length ∧
      ∀ i : Nat, vs[i]? =
        ((ButterKeyedEnum fruits ⟨none, some valuesTupleFactory⟩).tupleData[i]?).map
          (fun r => getEntry r "color")) :=
  ordered_views_follow_tuple fruits ⟨none, some valuesTupleFactory⟩ valuesTupleFactory
    (ButterKeyedEnum fruits ⟨none, some valuesTupleFactory⟩) rfl rfl
    (by decide) "color" (by decide)

/-- C9: keyed-record construction performs no runtime validation of the
tupleFactory: for every mapping and every factory the backing `$tuple` is
exactly the factory's output — frozen as returned — and a non-empty output
is exposed as-is through the `tuple` getter, whatever keys it omits,
repeats or invents. -/
theorem keyed_enum_no_tuple_validation (M : KeyedInput) (options : KeyedOptions)
    (tf : KeyedInput → List JObj) (htf : options.tupleFactory = some tf) :
    (ButterKeyedEnum M options).tupleData = tf ((ButterKeyedEnum M options).enum) ∧
    keyedTupleVal M options =
      deepFreeze (JSVal.arr false
        ((tf ((ButterKeyedEnum M options).enum)).map objOfJObj)) ∧
    (tf ((ButterKeyedEnum M options).enum) ≠ [] →
      (ButterKeyedEnum M options).tuple =
        TupleView.view (tf ((ButterKeyedEnum M options).enum))) := by
  have h1 : (ButterKeyedEnum M options).tupleData =
      tf ((ButterKeyedEnum M options).enum) := by
    simp [ButterKeyedEnum, htf]
  refine ⟨h1, ?_, ?_⟩
  · simp [keyedTupleVal, htf, h1]
  · intro hne
    have hlen : ¬ (ButterKeyedEnum M options).tupleData.length = 0 := by
      simpa [List.length_eq_zero, h1] using hne
    simp [KeyedEnum.tuple, hlen, h1, hne]

/-- A closed instance of the C9 theorem, with a factory that omits two
keys, repeats the banana record and adds a record of no key: construction
still exposes exactly that sequence. -/
theorem keyed_enum_no_tuple_validation_witness :
    (ButterKeyedEnum fruits ⟨none, some sloppyTupleFactory⟩).tupleData =
      sloppyTupleFactory ((ButterKeyedEnum fruits ⟨none, some sloppyTupleFactory⟩).enum) ∧
    (ButterKeyedEnum fruits ⟨none, some sloppyTupleFactory⟩).tupleData =
      [bananaAug, bananaAug, [("name", JVal.vStr "ghost")]] := by
  have h := keyed_enum_no_tuple_validation fruits ⟨none, some sloppyTupleFactory⟩
    sloppyTupleFactory rfl
  exact ⟨h.1, by decide⟩

/-- C7: every structure returned by either factory is deeply frozen — any
write, at any depth, to the label-sequence factory's tuple or enum, or to
the keyed factory's enum or (factory-supplied) tuple, fails instead of
taking effect. -/
theorem returned_structures_deeply_frozen (S : List String) (M : KeyedInput)
    (options : KeyedOptions) (tf : KeyedInput → List JObj)
    (htf : options.tupleFactory = some tf)
    (path : List PathStep) (w : JSVal) :
    writeAt path (tupleEnumTupleVal S) w = none ∧
    writeAt path (tupleEnumEnumVal S) w = none ∧
    writeAt path (keyedEnumVal M options) w = none ∧
    writeAt path (keyedTupleVal M options) w = none := by
  refine ⟨writeAt_deepFreeze path _ w, writeAt_deepFreeze path _ w,
    writeAt_deepFreeze path _ w, ?_⟩
  simp only [keyedTupleVal, htf]
  exact writeAt_deepFreeze path _ w

/-- A closed instance of the C7 theorem: writes to a nested field of a
frozen augmented record and to an element of the frozen tuple both fail. -/
theorem returned_structures_deeply_frozen_witness :
    writeAt [PathStep.field "apple", PathStep.field "color"]
      (keyedEnumVal fruits ⟨none, some valuesTupleFactory⟩)
      (JSVal.prim (JVal.vStr "blue")) = none ∧
    writeAt [PathStep.idx 1]
      (keyedTupleVal fruits ⟨none, some valuesTupleFactory⟩)
      (JSVal.prim (JVal.vNum 0)) = none ∧
    writeAt [PathStep.idx 0] (tupleEnumTupleVal ["red", "green", "blue"])
      (JSVal.prim (JVal.vStr "x")) = none ∧
    writeAt [PathStep.field "green"] (tupleEnumEnumVal ["red", "green", "blue"])
      (JSVal.prim (JVal.vStr "x")) = none :=
  ⟨(returned_structures_deeply_frozen ["red", "green", "blue"] fruits
      ⟨none, some valuesTupleFactory⟩ valuesTupleFactory rfl
      [PathStep.field "apple", PathStep.field "color"]
      (JSVal.prim (JVal.vStr "blue"))).2.2.1,
   (returned_structures_deeply_frozen ["red", "green", "blue"] fruits
      ⟨none, some valuesTupleFactory⟩ valuesTupleFactory rfl
      [PathStep.idx 1] (JSVal.prim (JVal.vNum 0))).2.2.2,
   (returned_structures_deeply_frozen ["red", "green", "blue"] fruits
      ⟨none, some valuesTupleFactory⟩ valuesTupleFactory rfl
      [PathStep.idx 0] (JSVal.prim (JVal.vStr "x"))).1,
   (returned_structures_deeply_frozen ["red", "green", "blue"] fruits
      ⟨none, some valuesTupleFactory⟩ valuesTupleFactory rfl
      [PathStep.field "green"] (JSVal.prim (JVal.vStr "x"))).2.1⟩

end ButterEnums
